import Mathlib

/-!
Shallow embedding of the mingus3 core (notes, keys, intervals modules) and
verification of its specified properties.

Notes are modelled as `List Char` (Python strings).  A Python function that
can raise an exception is modelled as returning an `Option`: `none` stands
for the raised exception, `some` for a normal return.
-/

namespace Mingus

abbrev Note := List Char

/-- `_note_dict` from notes.py: base pitch-class value of each natural letter;
`none` models absence from the dict. -/
def note_dict (c : Char) : Option Int :=
  if c = 'C' then some 0
  else if c = 'D' then some 2
  else if c = 'E' then some 4
  else if c = 'F' then some 5
  else if c = 'G' then some 7
  else if c = 'A' then some 9
  else if c = 'B' then some 11
  else none

/-- `fifths` tuple from notes.py. -/
def fifths : List Char := ['F', 'C', 'G', 'D', 'A', 'E', 'B']

/-- `is_valid_note` from notes.py.  Python evaluates `note[0]`, which raises
`IndexError` on the empty string; that case is modelled as `none`. -/
def is_valid_note : Note → Option Bool
  | [] => none
  | letter :: accs =>
      some ((note_dict letter).isSome && accs.all (fun a => a = 'b' || a = '#'))

/-- The notes accepted by `is_valid_note`. -/
def ValidNote (n : Note) : Prop := is_valid_note n = some true

instance (n : Note) : Decidable (ValidNote n) := by
  unfold ValidNote; infer_instance

/-- Signed semitone value of one accidental character. -/
def acc_val (c : Char) : Int := if c = 'b' then -1 else if c = '#' then 1 else 0

/-- Net accidental offset of a list of accidental characters. -/
def acc_sum (l : List Char) : Int := (l.map acc_val).sum

/-- `note_to_int` from notes.py: natural base value plus accidental offset,
mod 12.  Only meaningful on valid notes (Python raises otherwise). -/
def note_to_int : Note → Int
  | [] => 0
  | letter :: accs => ((note_dict letter).getD 0 + acc_sum accs) % 12

/-- `augment` from notes.py: strip a trailing flat, else append a sharp. -/
def augment (n : Note) : Note :=
  if n.getLast? ≠ some 'b' then n ++ ['#'] else n.dropLast

/-- `diminish` from notes.py: strip a trailing sharp, else append a flat. -/
def diminish (n : Note) : Note :=
  if n.getLast? ≠ some '#' then n ++ ['b'] else n.dropLast

/-- `keys` table from keys.py: the 15 (major, relative minor) pairs, from
7 flats to 7 sharps. -/
def keys_table : List (Note × Note) :=
  [ (['C','b'], ['a','b']),
    (['G','b'], ['e','b']),
    (['D','b'], ['b','b']),
    (['A','b'], ['f']),
    (['E','b'], ['c']),
    (['B','b'], ['g']),
    (['F'], ['d']),
    (['C'], ['a']),
    (['G'], ['e']),
    (['D'], ['b']),
    (['A'], ['f','#']),
    (['E'], ['c','#']),
    (['B'], ['g','#']),
    (['F','#'], ['d','#']),
    (['C','#'], ['a','#']) ]

/-- `major_keys` from keys.py. -/
def major_keys : List Note := keys_table.map Prod.fst

/-- `minor_keys` from keys.py. -/
def minor_keys : List Note := keys_table.map Prod.snd

/-- `base_scale` from keys.py: the natural letters. -/
def base_scale : List Char := ['C', 'D', 'E', 'F', 'G', 'A', 'B']

/-- `is_valid_key` from keys.py: membership in any row of the table. -/
def is_valid_key (key : Note) : Bool :=
  keys_table.any (fun p => key == p.1 || key == p.2)

/-- `get_key_signature` from keys.py: row index of the key (major column if
the first character is upper case, minor column otherwise) minus 7.
`none` models the `NoteFormatError` raised on an invalid key. -/
def get_key_signature (key : Note) : Option Int :=
  if ¬ is_valid_key key then none
  else if (key.headD ' ').isUpper then
    (major_keys.findIdx? (fun x => x == key)).map (fun i => (i : Int) - 7)
  else
    (minor_keys.findIdx? (fun x => x == key)).map (fun i => (i : Int) - 7)

/-- `get_key_signature_accidentals` from keys.py.  For a negative signature
-n it collects `fifths[-i-1] + 'b'` for i in 0..n-1; for a positive one
`fifths[i] + '#'`. -/
def get_key_signature_accidentals (key : Note) : Option (List Note) :=
  (get_key_signature key).map (fun accs =>
    if accs < 0 then
      (List.range (-accs).toNat).map (fun i => [fifths.getD (6 - i) ' ', 'b'])
    else if accs > 0 then
      (List.range accs.toNat).map (fun i => [fifths.getD i ' ', '#'])
    else [])

/-- `get_notes` from keys.py (the memoization cache is transparent and is
omitted): rotate the natural letters to start at the tonic's letter and
replace each letter that carries a signature accidental by its altered
spelling. -/
def get_notes (key : Note) : Option (List Note) :=
  (get_key_signature_accidentals key).bind (fun sig_accs =>
    (base_scale.findIdx? (fun c => c = (key.headD ' ').toUpper)).map
      (fun tonic_index =>
        (List.range 7).map (fun i =>
          let letter := base_scale.getD ((tonic_index + i) % 7) ' '
          match sig_accs.find? (fun a => a.headD ' ' = letter) with
          | some alt => alt
          | none => [letter])))

/-! ## intervals.py -/

/-- `interval` from intervals.py.  `assert_valid_start_note` first checks
that the start note is valid and a full-string member of the key's scale
(raising `KeyError` otherwise, modelled `none`); the subsequent index
search matches the scale entry by first letter only. -/
def interval (key start_note : Note) (scale_degree_interval : Int) :
    Option Note :=
  match get_notes key with
  | none => none
  | some notes_in_key =>
      if is_valid_note start_note ≠ some true then none
      else if start_note ∉ notes_in_key then none
      else
        match notes_in_key.findIdx?
            (fun n => n.headD ' ' = start_note.headD ' ') with
        | none => none
        | some index =>
            notes_in_key.get?
              (((index : Int) + scale_degree_interval) % 7).toNat

/-- `second` from intervals.py. -/
def second (note key : Note) : Option Note := interval key note 1

/-- `third` from intervals.py. -/
def third (note key : Note) : Option Note := interval key note 2

/-- `fourth` from intervals.py. -/
def fourth (note key : Note) : Option Note := interval key note 3

/-- `fifth` from intervals.py. -/
def fifth (note key : Note) : Option Note := interval key note 4

/-- `sixth` from intervals.py. -/
def sixth (note key : Note) : Option Note := interval key note 5

/-- `seventh` from intervals.py. -/
def seventh (note key : Note) : Option Note := interval key note 6

/-- `measure` from intervals.py: directed chromatic distance mod 12. -/
def measure (note1 note2 : Note) : Int :=
  (note_to_int note2 - note_to_int note1) % 12

/-- The while loop of `augment_or_diminish_until_the_interval_is_right`,
with explicit fuel counting the remaining loop iterations; `none` models
non-termination within the fuel. -/
def adjust : Nat → Note → Note → Int → Option Note
  | 0, note1, note2, target =>
      if measure note1 note2 = target then some note2 else none
  | f + 1, note1, note2, target =>
      if measure note1 note2 = target then some note2
      else if measure note1 note2 > target then
        adjust f note1 (diminish note2) target
      else
        adjust f note1 (augment note2) target

/-- The post-pass of `augment_or_diminish_until_the_interval_is_right`:
flip a spelling carrying more than 6 sharps (resp. flats) to the
12-complement number of flats (resp. sharps) on the same letter. -/
def respell (note2 : Note) : Note :=
  let accs := note2.tail
  let sharp_count := accs.count '#'
  let flat_count := accs.count 'b'
  if sharp_count > 6 then
    note2.headD ' ' :: List.replicate (12 - sharp_count) 'b'
  else if flat_count > 6 then
    note2.headD ' ' :: List.replicate (12 - flat_count) '#'
  else note2

/-- `augment_or_diminish_until_the_interval_is_right` from intervals.py:
the adjustment loop (11 units of fuel suffice, as proved below) followed
by the re-spelling post-pass. -/
def augment_or_diminish_until_the_interval_is_right
    (note1 note2 : Note) (half_step_interval : Int) : Option Note :=
  (adjust 11 note1 note2 half_step_interval).map respell

/-- `major_second` from intervals.py. -/
def major_second (note : Note) : Option Note :=
  (second [note.headD ' '] ['C']).bind (fun sec =>
    augment_or_diminish_until_the_interval_is_right note sec 2)

/-- `minor_second` from intervals.py. -/
def minor_second (note : Note) : Option Note :=
  (major_second note).map diminish

/-- `major_third` from intervals.py. -/
def major_third (note : Note) : Option Note :=
  (third [note.headD ' '] ['C']).bind (fun trd =>
    augment_or_diminish_until_the_interval_is_right note trd 4)

/-- `minor_third` from intervals.py. -/
def minor_third (note : Note) : Option Note :=
  (major_third note).map diminish

/-- `perfect_fourth` from intervals.py. -/
def perfect_fourth (note : Note) : Option Note :=
  (fourth [note.headD ' '] ['C']).bind (fun frt =>
    augment_or_diminish_until_the_interval_is_right note frt 5)

/-- `major_fourth` from intervals.py. -/
def major_fourth (note : Note) : Option Note := perfect_fourth note

/-- `perfect_fifth` from intervals.py. -/
def perfect_fifth (note : Note) : Option Note :=
  (fifth [note.headD ' '] ['C']).bind (fun fif =>
    augment_or_diminish_until_the_interval_is_right note fif 7)

/-- `major_fifth` from intervals.py. -/
def major_fifth (note : Note) : Option Note := perfect_fifth note

/-- `major_sixth` from intervals.py. -/
def major_sixth (note : Note) : Option Note :=
  (sixth [note.headD ' '] ['C']).bind (fun sth =>
    augment_or_diminish_until_the_interval_is_right note sth 9)

/-- `minor_sixth` from intervals.py. -/
def minor_sixth (note : Note) : Option Note :=
  (major_sixth note).map diminish

/-- `major_seventh` from intervals.py. -/
def major_seventh (note : Note) : Option Note :=
  (seventh [note.headD ' '] ['C']).bind (fun sth =>
    augment_or_diminish_until_the_interval_is_right note sth 11)

/-- `minor_seventh` from intervals.py. -/
def minor_seventh (note : Note) : Option Note :=
  (major_seventh note).map diminish

/-- `major_unison` = `perfect_unison` from intervals.py. -/
def major_unison (note : Note) : Option Note := some note

/-- Row of `pre_alt_int_lookup` inside `determine`:
(interval type name, harmony quality, half steps of the unaltered
major-scale interval). -/
def pre_alt_int_lookup (d : Nat) : Option (String × String × Int) :=
  match d with
  | 1 => some ("unison", "perfect", 0)
  | 2 => some ("second", "imperfect", 2)
  | 3 => some ("third", "imperfect", 4)
  | 4 => some ("fourth", "perfect", 5)
  | 5 => some ("fifth", "imperfect", 7)
  | 6 => some ("sixth", "imperfect", 9)
  | 7 => some ("seventh", "imperfect", 11)
  | _ => none

/-- `perfect_int_modifier` inside `determine`. -/
def perfect_int_modifier (d : Int) : Option (String × String) :=
  if d = -2 then some ("doubly diminished", "bb")
  else if d = -1 then some ("diminished", "b")
  else if d = 0 then some ("perfect", "")
  else if d = 1 then some ("augmented", "#")
  else if d = 2 then some ("doubly augmented", "##")
  else none

/-- `imperfect_int_modifier` inside `determine`. -/
def imperfect_int_modifier (d : Int) : Option (String × String) :=
  if d = -2 then some ("diminished", "bb")
  else if d = -1 then some ("minor", "b")
  else if d = 0 then some ("major", "")
  else if d = 1 then some ("augmented", "#")
  else none

/-- `determine` from intervals.py: classify the interval size from the
letter distance, measure the chromatic distance, normalize the difference
to `[-6, 6]`, and name the interval through the quality-modifier tables.
`none` models the exceptions (invalid note, modifier-table `KeyError`). -/
def determine (note1 note2 : Note) (shorthand : Bool) (up : Bool) :
    Option String :=
  if is_valid_note note1 ≠ some true then none
  else if is_valid_note note2 ≠ some true then none
  else
    match base_scale.findIdx? (fun c => c = note1.headD ' '),
          base_scale.findIdx? (fun c => c = note2.headD ' ') with
    | some n1_int_pre_alt, some n2_int_pre_alt =>
        let distance_pre_alt : Int :=
          if up then
            ((n2_int_pre_alt : Int) - (n1_int_pre_alt : Int)) % 7 + 1
          else
            ((n1_int_pre_alt : Int) - (n2_int_pre_alt : Int)) % 7 + 1
        match pre_alt_int_lookup distance_pre_alt.toNat with
        | none => none
        | some (int_type_name, hmy_qual, half_steps_pre_alt) =>
            let n1_int := note_to_int note1
            let n2_int := note_to_int note2
            let half_steps : Int :=
              if up then (n2_int - n1_int) % 12 else (n1_int - n2_int) % 12
            let d0 := half_steps - half_steps_pre_alt
            let half_step_diff :=
              if d0 < -6 then d0 + 12 else if d0 > 6 then d0 - 12 else d0
            match (if hmy_qual = "perfect" then
                     perfect_int_modifier half_step_diff
                   else imperfect_int_modifier half_step_diff) with
            | none => none
            | some (mod_name, mod_sym) =>
                if shorthand then
                  some (mod_sym ++ toString distance_pre_alt)
                else
                  some (mod_name ++ " " ++ int_type_name)
    | _, _ => none

/-- `parse_shorthand` from intervals.py: the regex
`^([b#]*)([1-9]|1[0-5])$` split into leading accidentals and a degree
1..15, the degree reduced to (1..7 residue, octave quotient).  `none`
models the `ValueError` on a regex mismatch. -/
def parse_shorthand (shorthand : List Char) :
    Option (List Char × Nat × Nat) :=
  let accs := shorthand.takeWhile (fun c => c = 'b' || c = '#')
  let rest := shorthand.dropWhile (fun c => c = 'b' || c = '#')
  match rest with
  | [c] =>
      if '1' ≤ c ∧ c ≤ '9' then
        let d := c.toNat - '0'.toNat
        some (accs, (d - 1) % 7 + 1, (d - 1) / 7)
      else none
  | ['1', c] =>
      if '0' ≤ c ∧ c ≤ '5' then
        let d := 10 + (c.toNat - '0'.toNat)
        some (accs, (d - 1) % 7 + 1, (d - 1) / 7)
      else none
  | _ => none

/-- The `shorthand_lookup` dispatch table inside `from_shorthand`
(degree, direction → interval function). -/
def shorthand_lookup (degree : Nat) (up : Bool) :
    Option (Note → Option Note) :=
  match degree with
  | 1 => some major_unison
  | 2 => some (if up then major_second else minor_seventh)
  | 3 => some (if up then major_third else minor_sixth)
  | 4 => some (if up then major_fourth else major_fifth)
  | 5 => some (if up then major_fifth else major_fourth)
  | 6 => some (if up then major_sixth else minor_third)
  | 7 => some (if up then major_seventh else minor_second)
  | _ => none

/-- Result of `from_shorthand`: the sentinel `False`, the raised
`ValueError` from `parse_shorthand`, or a returned note. -/
inductive FromShorthandResult where
  | sentinelFalse
  | valueError
  | note (n : Note)
deriving DecidableEq

/-- `from_shorthand` from intervals.py.  The outer `none` models an
exception other than the modelled `ValueError`: the `IndexError` that
`is_valid_note` raises on an empty note, or the (unreachable for a valid
note) case of the interval function not returning. -/
def from_shorthand (note : Note) (itv : List Char) (up : Bool) :
    Option FromShorthandResult :=
  match is_valid_note note with
  | none => none
  | some false => some .sentinelFalse
  | some true =>
      match parse_shorthand itv with
      | none => some .valueError
      | some (accs, degree, _) =>
          match shorthand_lookup degree up with
          | none => some .sentinelFalse
          | some f =>
              match f note with
              | none => none
              | some res =>
                  some (.note (accs.foldl (fun r x =>
                    if (x = '#' && up) || (x = 'b' && !up) then augment r
                    else if (x = 'b' && up) || (x = '#' && !up) then
                      diminish r
                    else r) res))

end Mingus

namespace Mingus

/-! ## Helper lemmas -/

/-- All 30 valid keys, majors then minors. -/
def all_keys : List Note := major_keys ++ minor_keys

lemma valid_key_mem {k : Note} (h : is_valid_key k = true) :
    k ∈ all_keys := by
  unfold is_valid_key at h
  rw [List.any_eq_true] at h
  obtain ⟨p, hp, hk⟩ := h
  rw [Bool.or_eq_true, beq_iff_eq, beq_iff_eq] at hk
  rcases hk with hk | hk
  · exact List.mem_append_left _
      (hk ▸ List.mem_map_of_mem Prod.fst hp)
  · exact List.mem_append_right _
      (hk ▸ List.mem_map_of_mem Prod.snd hp)

lemma note_dict_isSome_iff (c : Char) :
    (note_dict c).isSome = true ↔ c ∈ ['C','D','E','F','G','A','B'] := by
  unfold note_dict
  split_ifs with h1 h2 h3 h4 h5 h6 h7 <;> simp_all

lemma all_accidentals_iff (cs : List Char) :
    cs.all (fun a => a = 'b' || a = '#') = true ↔
      ∀ a ∈ cs, a = '#' ∨ a = 'b' := by
  rw [List.all_eq_true]
  constructor <;> intro h a ha <;> have h' := h a ha <;> revert h' <;>
    simp only [Bool.or_eq_true, decide_eq_true_eq] <;> tauto

lemma validNote_cons_iff (c : Char) (accs : List Char) :
    ValidNote (c :: accs) ↔
      (note_dict c).isSome = true ∧
      accs.all (fun a => a = 'b' || a = '#') = true := by
  unfold ValidNote is_valid_note
  rw [Option.some_inj, Bool.and_eq_true]

lemma validNote_ne_nil {n : Note} (h : ValidNote n) : n ≠ [] := by
  intro hn
  subst hn
  exact Option.noConfusion h

lemma acc_sum_append (l : List Char) (c : Char) :
    acc_sum (l ++ [c]) = acc_sum l + acc_val c := by
  simp [acc_sum]

lemma note_to_int_cons (c : Char) (l : List Char) :
    note_to_int (c :: l) = ((note_dict c).getD 0 + acc_sum l) % 12 := rfl

lemma note_to_int_augment {n : Note} (h : ValidNote n) :
    note_to_int (augment n) = (note_to_int n + 1) % 12 := by
  obtain ⟨c, accs, rfl⟩ : ∃ c accs, n = c :: accs := by
    cases n with
    | nil => exact absurd rfl (validNote_ne_nil h)
    | cons c accs => exact ⟨c, accs, rfl⟩
  obtain ⟨hc, -⟩ := (validNote_cons_iff c accs).mp h
  by_cases hb : (c :: accs).getLast? = some 'b'
  · rcases List.eq_nil_or_concat accs with rfl | ⟨as, a, rfl⟩
    · have : c = 'b' := by simpa using hb
      subst this
      simp [note_dict] at hc
    · simp only [List.concat_eq_append] at *
      have ha : a = 'b' := by
        have : ((c :: as) ++ [a]).getLast? = some a := List.getLast?_concat _
        rw [← List.cons_append] at hb
        rw [this] at hb
        exact Option.some_inj.mp hb
      subst ha
      have hdrop : augment (c :: (as ++ ['b'])) = c :: as := by
        unfold augment
        rw [if_neg (by simp_all), ← List.cons_append, List.dropLast_concat]
      rw [hdrop, note_to_int_cons, note_to_int_cons, acc_sum_append]
      have : acc_val 'b' = -1 := rfl
      rw [this]
      omega
  · have happ : augment (c :: accs) = c :: (accs ++ ['#']) := by
      unfold augment
      rw [if_pos hb, List.cons_append]
    rw [happ, note_to_int_cons, note_to_int_cons, acc_sum_append]
    have : acc_val '#' = 1 := rfl
    rw [this]
    omega

lemma note_to_int_diminish {n : Note} (h : ValidNote n) :
    note_to_int (diminish n) = (note_to_int n - 1) % 12 := by
  obtain ⟨c, accs, rfl⟩ : ∃ c accs, n = c :: accs := by
    cases n with
    | nil => exact absurd rfl (validNote_ne_nil h)
    | cons c accs => exact ⟨c, accs, rfl⟩
  obtain ⟨hc, -⟩ := (validNote_cons_iff c accs).mp h
  by_cases hb : (c :: accs).getLast? = some '#'
  · rcases List.eq_nil_or_concat accs with rfl | ⟨as, a, rfl⟩
    · have : c = '#' := by simpa using hb
      subst this
      simp [note_dict] at hc
    · simp only [List.concat_eq_append] at *
      have ha : a = '#' := by
        have : ((c :: as) ++ [a]).getLast? = some a := List.getLast?_concat _
        rw [← List.cons_append] at hb
        rw [this] at hb
        exact Option.some_inj.mp hb
      subst ha
      have hdrop : diminish (c :: (as ++ ['#'])) = c :: as := by
        unfold diminish
        rw [if_neg (by simp_all), ← List.cons_append, List.dropLast_concat]
      rw [hdrop, note_to_int_cons, note_to_int_cons, acc_sum_append]
      have : acc_val '#' = 1 := rfl
      rw [this]
      omega
  · have happ : diminish (c :: accs) = c :: (accs ++ ['b']) := by
      unfold diminish
      rw [if_pos hb, List.cons_append]
    rw [happ, note_to_int_cons, note_to_int_cons, acc_sum_append]
    have : acc_val 'b' = -1 := rfl
    rw [this]
    omega

lemma augment_valid {n : Note} (h : ValidNote n) : ValidNote (augment n) := by
  obtain ⟨c, accs, rfl⟩ : ∃ c accs, n = c :: accs := by
    cases n with
    | nil => exact absurd rfl (validNote_ne_nil h)
    | cons c accs => exact ⟨c, accs, rfl⟩
  obtain ⟨hc, hall⟩ := (validNote_cons_iff c accs).mp h
  by_cases hb : (c :: accs).getLast? = some 'b'
  · rcases List.eq_nil_or_concat accs with rfl | ⟨as, a, rfl⟩
    · have : c = 'b' := by simpa using hb
      subst this
      simp [note_dict] at hc
    · simp only [List.concat_eq_append] at *
      have hdrop : augment (c :: (as ++ [a])) = c :: as := by
        unfold augment
        rw [if_neg (by simp_all), ← List.cons_append, List.dropLast_concat]
      rw [hdrop, validNote_cons_iff]
      refine ⟨hc, ?_⟩
      rw [List.all_append] at hall
      exact (Bool.and_eq_true _ _ |>.mp hall).1
  · have happ : augment (c :: accs) = c :: (accs ++ ['#']) := by
      unfold augment
      rw [if_pos hb, List.cons_append]
    rw [happ, validNote_cons_iff]
    refine ⟨hc, ?_⟩
    rw [List.all_append, hall]
    decide

lemma diminish_valid {n : Note} (h : ValidNote n) :
    ValidNote (diminish n) := by
  obtain ⟨c, accs, rfl⟩ : ∃ c accs, n = c :: accs := by
    cases n with
    | nil => exact absurd rfl (validNote_ne_nil h)
    | cons c accs => exact ⟨c, accs, rfl⟩
  obtain ⟨hc, hall⟩ := (validNote_cons_iff c accs).mp h
  by_cases hb : (c :: accs).getLast? = some '#'
  · rcases List.eq_nil_or_concat accs with rfl | ⟨as, a, rfl⟩
    · have : c = '#' := by simpa using hb
      subst this
      simp [note_dict] at hc
    · simp only [List.concat_eq_append] at *
      have hdrop : diminish (c :: (as ++ [a])) = c :: as := by
        unfold diminish
        rw [if_neg (by simp_all), ← List.cons_append, List.dropLast_concat]
      rw [hdrop, validNote_cons_iff]
      refine ⟨hc, ?_⟩
      rw [List.all_append] at hall
      exact (Bool.and_eq_true _ _ |>.mp hall).1
  · have happ : diminish (c :: accs) = c :: (accs ++ ['b']) := by
      unfold diminish
      rw [if_pos hb, List.cons_append]
    rw [happ, validNote_cons_iff]
    refine ⟨hc, ?_⟩
    rw [List.all_append, hall]
    decide

lemma findIdx_letter_eq :
    ∀ (scale : List Note) (s : Note),
      (scale.map (fun n => n.headD ' ')).Nodup → s ∈ scale →
      ∃ j, scale.get? j = some s ∧
        scale.findIdx? (fun n => n.headD ' ' = s.headD ' ') = some j := by
  intro scale
  induction scale with
  | nil => intro s _ hs; cases hs
  | cons x xs ih =>
      intro s hnd hs
      rw [List.map_cons, List.nodup_cons] at hnd
      obtain ⟨hx, hnd'⟩ := hnd
      by_cases hl : x.headD ' ' = s.headD ' '
      · have hsx : s = x := by
          rcases List.mem_cons.mp hs with rfl | hmem
          · rfl
          · exact absurd
              (hl ▸ List.mem_map_of_mem (fun n => n.headD ' ') hmem)
              hx
        subst hsx
        exact ⟨0, rfl, by simp [List.findIdx?_cons, hl]⟩
      · have hsm : s ∈ xs := by
          rcases List.mem_cons.mp hs with rfl | hmem
          · exact absurd rfl hl
          · exact hmem
        obtain ⟨j, hj1, hj2⟩ := ih s hnd' hsm
        refine ⟨j + 1, by simpa using hj1, ?_⟩
        rw [List.findIdx?_cons, if_neg (by simpa using hl),
          List.findIdx?_succ, hj2]
        rfl

/-- For every valid key, the first letters of the scale entries are
pairwise distinct. -/
lemma scale_letters_nodup :
    ∀ k ∈ all_keys, (((get_notes k).getD []).map
      (fun n => n.headD ' ')).Nodup := by
  decide

/-! ## Claims -/

/-- C1: the spec (and the docstring of `determine`) state that a letter
distance of 5 is classified as a fifth with baseline quality perfect, so
that `determine('C','G')` is a "perfect fifth"; the code's
`pre_alt_int_lookup` table instead marks the fifth 'imperfect', so the
code returns "major fifth" there, while the third examples do hold. -/
theorem determine_fifth_code_bug :
    determine ['C'] ['E'] false true = some "major third" ∧
    determine ['C'] ['E','b'] false true = some "minor third" ∧
    determine ['C'] ['G'] false true = some "major fifth" ∧
    determine ['C'] ['G'] false true ≠ some "perfect fifth" := by
  refine ⟨by decide, by decide, by decide, by decide⟩

/-- C3 counterexample: the claim says that for key 'F' (signature -1) the
accidental list is the first letter of (F,C,G,D,A,E,B) suffixed 'b',
i.e. ['Fb']; the code returns ['Bb']. -/
theorem key_signature_accidentals_flats_counterexample :
    get_key_signature_accidentals ['F'] = some [['B','b']] ∧
    get_key_signature_accidentals ['F'] ≠ some [['F','b']] := by
  refine ⟨by decide, by decide⟩

/-- C3 amended: for a signature of -n the accidentals are the first n
letters of the REVERSED table (B,E,A,D,G,C,F) each suffixed 'b'; for +n
the first n letters of (F,C,G,D,A,E,B) each suffixed '#'; for 0 the
empty list. -/
theorem key_signature_accidentals_spec :
    ∀ k : Note, is_valid_key k = true →
      (get_key_signature k).isSome ∧
      (let s := (get_key_signature k).getD 0
       if s < 0 then
         get_key_signature_accidentals k =
           some (((fifths.reverse).take (-s).toNat).map (fun c => [c, 'b']))
       else if s > 0 then
         get_key_signature_accidentals k =
           some ((fifths.take s.toNat).map (fun c => [c, '#']))
       else get_key_signature_accidentals k = some []) := by
  intro k h
  exact (by decide :
    ∀ k ∈ all_keys,
      (get_key_signature k).isSome ∧
      (let s := (get_key_signature k).getD 0
       if s < 0 then
         get_key_signature_accidentals k =
           some (((fifths.reverse).take (-s).toNat).map (fun c => [c, 'b']))
       else if s > 0 then
         get_key_signature_accidentals k =
           some ((fifths.take s.toNat).map (fun c => [c, '#']))
       else get_key_signature_accidentals k = some [])) k (valid_key_mem h)

/-- C3 witness: the amended statement instantiated at key 'E' (4 sharps). -/
theorem key_signature_accidentals_spec_witness :
    (get_key_signature ['E']).isSome ∧
    (let s := (get_key_signature ['E']).getD 0
     if s < 0 then
       get_key_signature_accidentals ['E'] =
         some (((fifths.reverse).take (-s).toNat).map (fun c => [c, 'b']))
     else if s > 0 then
       get_key_signature_accidentals ['E'] =
         some ((fifths.take s.toNat).map (fun c => [c, '#']))
     else get_key_signature_accidentals ['E'] = some []) :=
  key_signature_accidentals_spec ['E'] (by decide)

/-- C4 counterexample: the claim says `get_key_signature('c')` is 0; the
code returns -3 (C minor is the relative minor of Eb major, three
flats). -/
theorem get_key_signature_c_counterexample :
    get_key_signature ['c'] ≠ some 0 := by decide

/-- C4 amended: `get_key_signature` returns 0 for 'C', -1 for 'F', 1 for
'G', and -3 for 'c'; the relative-minor rule holds for 'a' (the relative
minor of C), whose signature is 0. -/
theorem get_key_signature_examples :
    get_key_signature ['C'] = some 0 ∧
    get_key_signature ['F'] = some (-1) ∧
    get_key_signature ['G'] = some 1 ∧
    get_key_signature ['c'] = some (-3) ∧
    get_key_signature ['a'] = some 0 := by
  refine ⟨by decide, by decide, by decide, by decide, by decide⟩

/-- C5 counterexample: the claim says `is_valid_note` returns a boolean
for every string including the empty one; on the empty string the code
evaluates `note[0]` and raises `IndexError` (modelled `none`). -/
theorem is_valid_note_empty_counterexample :
    is_valid_note [] = none := by decide

/-- C6: for every valid note, augmenting raises the pitch class by one
semitone and diminishing lowers it by one, mod 12. -/
theorem augment_diminish_pitch_shift :
    ∀ n : Note, ValidNote n →
      note_to_int (augment n) = (note_to_int n + 1) % 12 ∧
      note_to_int (diminish n) = (note_to_int n - 1) % 12 :=
  fun _ h => ⟨note_to_int_augment h, note_to_int_diminish h⟩

/-- C6 witness: the pitch-shift equations instantiated at the note 'Cb'
(exercising the accidental-cancellation branch of `augment`). -/
theorem augment_diminish_pitch_shift_witness :
    note_to_int (augment ['C','b']) = (note_to_int ['C','b'] + 1) % 12 ∧
    note_to_int (diminish ['C','b']) = (note_to_int ['C','b'] - 1) % 12 :=
  augment_diminish_pitch_shift ['C','b'] (by decide)

/-- C5 amended: for every NONEMPTY string, `is_valid_note` returns a
boolean without raising, and that boolean is true iff the first character
is one of the seven natural letters and every remaining character is '#'
or 'b'; on the empty string it raises. -/
theorem is_valid_note_spec :
    ∀ (c : Char) (cs : List Char),
      (is_valid_note (c :: cs)).isSome ∧
      (is_valid_note (c :: cs) = some true ↔
        c ∈ ['C','D','E','F','G','A','B'] ∧
        ∀ a ∈ cs, a = '#' ∨ a = 'b') := by
  intro c cs
  refine ⟨by simp [is_valid_note], ?_⟩
  have h : is_valid_note (c :: cs) =
      some ((note_dict c).isSome &&
        cs.all (fun a => a = 'b' || a = '#')) := rfl
  rw [h, Option.some_inj, Bool.and_eq_true, note_dict_isSome_iff,
    all_accidentals_iff]

/-- C5 witness: the nonempty-string statement instantiated at 'C#'. -/
theorem is_valid_note_spec_witness :
    (is_valid_note ['C','#']).isSome ∧
    (is_valid_note ['C','#'] = some true ↔
      'C' ∈ ['C','D','E','F','G','A','B'] ∧
      ∀ a ∈ ['#'], a = '#' ∨ a = 'b') :=
  is_valid_note_spec 'C' ['#']

/-- C2 counterexample: the claim says an altered start note still resolves
by its natural letter, so `interval('C','Db',0)` should succeed and
return the scale entry at D's position; the code's
`assert_valid_start_note` does a full-string membership test and raises
`KeyError` ('Db' is not in C major's scale). -/
theorem interval_letter_match_counterexample :
    interval ['C'] ['D','b'] 0 = none ∧
    interval ['C'] ['D','b'] 0 ≠ some ['D'] := by
  refine ⟨by decide, by decide⟩

/-- C2 amended: `interval(k, s, d)` succeeds iff the valid start note `s`
is a full-string member of `k`'s diatonic scale (an altered start note
such as 'Db' in key 'C' is rejected, despite the letter-only index
search); for a member it returns the scale entry at position
(index of s + d) mod 7. -/
theorem interval_spec :
    ∀ (k : Note), is_valid_key k = true →
    ∀ (s : Note), ValidNote s →
    ∀ (scale : List Note), get_notes k = some scale →
    ∀ d : Int,
      (s ∈ scale →
        ∃ j, scale.get? j = some s ∧
          interval k s d = scale.get? (((j : Int) + d) % 7).toNat) ∧
      (s ∉ scale → interval k s d = none) := by
  intro k hk s hs scale hscale d
  have hnd : (scale.map (fun n => n.headD ' ')).Nodup := by
    have := scale_letters_nodup k (valid_key_mem hk)
    rwa [hscale] at this
  have hv : ¬ (is_valid_note s ≠ some true) := by
    simp only [ne_eq, not_not]
    exact hs
  constructor
  · intro hmem
    obtain ⟨j, hj1, hj2⟩ := findIdx_letter_eq scale s hnd hmem
    refine ⟨j, hj1, ?_⟩
    unfold interval
    simp only [hscale]
    rw [if_neg hv, if_neg (not_not_intro hmem)]
    simp only [hj2]
  · intro hmem
    unfold interval
    simp only [hscale]
    rw [if_neg hv, if_pos hmem]

/-- C2 witness: the amended statement instantiated at key 'C', start note
'D', offset 1 (both conjuncts' hypotheses dischargeable; the membership
branch yields `interval('C','D',1) = 'E'`). -/
theorem interval_spec_witness :
    ∃ j, [['C'],['D'],['E'],['F'],['G'],['A'],['B']].get? j =
        some ['D'] ∧
      interval ['C'] ['D'] 1 =
        [['C'],['D'],['E'],['F'],['G'],['A'],['B']].get?
          (((j : Int) + 1) % 7).toNat :=
  (interval_spec ['C'] (by decide) ['D'] (by decide)
    [['C'],['D'],['E'],['F'],['G'],['A'],['B']] (by decide) 1).1
    (by decide)

/-- C7: for every valid key the scale has exactly 7 entries, their first
letters are the natural letters in cyclic order starting at the tonic's
letter, and each entry carries at most one accidental; in particular the
scales of 'F' and 'c' are as listed. -/
theorem get_notes_spec :
    (∀ k : Note, is_valid_key k = true →
      (get_notes k).isSome ∧
      ((get_notes k).getD []).length = 7 ∧
      ((get_notes k).getD []).map (fun n => n.headD ' ') =
        (List.range 7).map (fun i =>
          base_scale.getD
            (((base_scale.findIdx?
                (fun c => c = (k.headD ' ').toUpper)).getD 0 + i) % 7) ' ') ∧
      (∀ n ∈ (get_notes k).getD [], n.length ≤ 2)) ∧
    get_notes ['F'] =
      some [['F'], ['G'], ['A'], ['B','b'], ['C'], ['D'], ['E']] ∧
    get_notes ['c'] =
      some [['C'], ['D'], ['E','b'], ['F'], ['G'], ['A','b'], ['B','b']] := by
  refine ⟨fun k hk => ?_, by decide, by decide⟩
  exact (by decide :
    ∀ k ∈ all_keys,
      (get_notes k).isSome ∧
      ((get_notes k).getD []).length = 7 ∧
      ((get_notes k).getD []).map (fun n => n.headD ' ') =
        (List.range 7).map (fun i =>
          base_scale.getD
            (((base_scale.findIdx?
                (fun c => c = (k.headD ' ').toUpper)).getD 0 + i) % 7) ' ') ∧
      (∀ n ∈ (get_notes k).getD [], n.length ≤ 2))
    k (valid_key_mem hk)

/-- C7 witness: the universal part of the statement instantiated at the
key 'c'. -/
theorem get_notes_spec_witness :
    (get_notes ['c']).isSome ∧
    ((get_notes ['c']).getD []).length = 7 ∧
    ((get_notes ['c']).getD []).map (fun n => n.headD ' ') =
      (List.range 7).map (fun i =>
        base_scale.getD
          (((base_scale.findIdx?
              (fun c => c = (['c'].headD ' ').toUpper)).getD 0 + i) % 7) ' ') ∧
    (∀ n ∈ (get_notes ['c']).getD [], n.length ≤ 2) :=
  get_notes_spec.1 ['c'] (by decide)



lemma char_toNat_le_of_le {a b : Char} (h : a ≤ b) : a.toNat ≤ b.toNat := by
  rw [Char.le_def, UInt32.le_def, BitVec.le_def] at h
  exact h

lemma measure_nonneg (n1 n2 : Note) : 0 ≤ measure n1 n2 :=
  Int.emod_nonneg _ (by norm_num)

lemma measure_lt_twelve (n1 n2 : Note) : measure n1 n2 < 12 :=
  Int.emod_lt_of_pos _ (by norm_num)

lemma measure_augment (n1 : Note) {n2 : Note} (h : ValidNote n2) :
    measure n1 (augment n2) = (measure n1 n2 + 1) % 12 := by
  unfold measure
  rw [note_to_int_augment h]
  omega

lemma measure_diminish (n1 : Note) {n2 : Note} (h : ValidNote n2) :
    measure n1 (diminish n2) = (measure n1 n2 - 1) % 12 := by
  unfold measure
  rw [note_to_int_diminish h]
  omega

/-- Correctness of the adjustment loop: with fuel at least the distance
between the current measure and the target (both in [0,11]), the loop
returns a valid note whose measure is exactly the target. -/
lemma adjust_spec :
    ∀ (fuel : Nat) (n1 n2 : Note) (t : Int), ValidNote n2 →
      0 ≤ t → t < 12 → (measure n1 n2 - t).natAbs ≤ fuel →
      ∃ r, adjust fuel n1 n2 t = some r ∧ ValidNote r ∧ measure n1 r = t := by
  intro fuel
  induction fuel with
  | zero =>
      intro n1 n2 t hv h0 h1 hd
      have he : measure n1 n2 = t := by omega
      exact ⟨n2, by simp [adjust, he], hv, he⟩
  | succ f ih =>
      intro n1 n2 t hv h0 h1 hd
      by_cases he : measure n1 n2 = t
      · exact ⟨n2, by simp [adjust, he], hv, he⟩
      · have hm0 : 0 ≤ measure n1 n2 := measure_nonneg n1 n2
        have hm1 : measure n1 n2 < 12 := measure_lt_twelve n1 n2
        by_cases hgt : measure n1 n2 > t
        · have hmd : measure n1 (diminish n2) = measure n1 n2 - 1 := by
            rw [measure_diminish n1 hv]
            omega
          obtain ⟨r, hr, hrv, hrm⟩ :=
            ih n1 (diminish n2) t (diminish_valid hv) h0 h1
              (by rw [hmd]; omega)
          exact ⟨r, by simp [adjust, he, hgt, hr], hrv, hrm⟩
        · have hma : measure n1 (augment n2) = measure n1 n2 + 1 := by
            rw [measure_augment n1 hv]
            omega
          obtain ⟨r, hr, hrv, hrm⟩ :=
            ih n1 (augment n2) t (augment_valid hv) h0 h1
              (by rw [hma]; omega)
          exact ⟨r, by simp [adjust, he, hgt, hr], hrv, hrm⟩

/-- C8: for valid notes and a target half-step count in [0,11], the
adjustment loop of `augment_or_diminish_until_the_interval_is_right`
terminates within 11 iterations (11 units of fuel suffice) at a note `r`
with `measure(note1, r) = target`; the function returns `respell r`,
which re-spells `r` as its letter with (12 - count) flats when `r`
carries more than 6 sharps, and as its letter with (12 - count) sharps
when `r` carries more than 6 flats (and at most 6 sharps). -/
theorem augment_or_diminish_spec :
    ∀ (note1 note2 : Note), ValidNote note1 → ValidNote note2 →
    ∀ t : Int, 0 ≤ t → t ≤ 11 →
      ∃ r, adjust 11 note1 note2 t = some r ∧ measure note1 r = t ∧
        augment_or_diminish_until_the_interval_is_right note1 note2 t =
          some (respell r) ∧
        (6 < r.tail.count '#' →
          respell r =
            r.headD ' ' :: List.replicate (12 - r.tail.count '#') 'b') ∧
        (6 < r.tail.count 'b' → r.tail.count '#' ≤ 6 →
          respell r =
            r.headD ' ' :: List.replicate (12 - r.tail.count 'b') '#') := by
  intro note1 note2 _ hv2 t h0 h1
  have hm0 : 0 ≤ measure note1 note2 := measure_nonneg note1 note2
  have hm1 : measure note1 note2 < 12 := measure_lt_twelve note1 note2
  obtain ⟨r, hr, _, hrm⟩ :=
    adjust_spec 11 note1 note2 t hv2 h0 (by omega) (by omega)
  refine ⟨r, hr, hrm, ?_, ?_, ?_⟩
  · unfold augment_or_diminish_until_the_interval_is_right
    rw [hr]
    rfl
  · intro hsharp
    unfold respell
    rw [if_pos hsharp]
  · intro hflat hsharp
    unfold respell
    rw [if_neg (by omega), if_pos hflat]

/-- C8 witness: the loop statement instantiated at note1 = 'C',
note2 = 'E', target 3 (one diminish step yields 'Eb'). -/
theorem augment_or_diminish_spec_witness :
    ∃ r, adjust 11 ['C'] ['E'] 3 = some r ∧ measure ['C'] r = 3 ∧
      augment_or_diminish_until_the_interval_is_right ['C'] ['E'] 3 =
        some (respell r) ∧
      (6 < r.tail.count '#' →
        respell r =
          r.headD ' ' :: List.replicate (12 - r.tail.count '#') 'b') ∧
      (6 < r.tail.count 'b' → r.tail.count '#' ≤ 6 →
        respell r =
          r.headD ' ' :: List.replicate (12 - r.tail.count 'b') '#') :=
  augment_or_diminish_spec ['C'] ['E'] (by decide) (by decide) 3
    (by decide) (by decide)


lemma shorthand_lookup_isSome {d : Nat} (h1 : 1 ≤ d) (h2 : d ≤ 7)
    (up : Bool) : (shorthand_lookup d up).isSome := by
  interval_cases d <;> cases up <;> simp [shorthand_lookup]

/-- C9 counterexample: the claim says `from_shorthand` returns the
sentinel `False` whenever the note is invalid; for the (invalid) empty
note the code propagates the `IndexError` raised by `is_valid_note`
instead of returning the sentinel. -/
theorem from_shorthand_empty_counterexample :
    from_shorthand [] ['3'] true = none ∧
    from_shorthand [] ['3'] true ≠ some .sentinelFalse := by
  refine ⟨by decide, by decide⟩

/-- C9 amended: for a NONEMPTY note, `from_shorthand` returns the
sentinel `False` when the note is invalid (and when the parsed degree
misses the dispatch table), while a valid note with a shorthand that does
not match `[accidentals][1-15]` raises `ValueError`; an empty note
instead propagates `IndexError`. -/
theorem from_shorthand_failure_modes :
    ∀ (note itv : List Char) (up : Bool),
      (is_valid_note note = some false →
        from_shorthand note itv up = some .sentinelFalse) ∧
      (is_valid_note note = some true → parse_shorthand itv = none →
        from_shorthand note itv up = some .valueError) := by
  intro note itv up
  constructor
  · intro h
    unfold from_shorthand
    rw [h]
  · intro hv hp
    unfold from_shorthand
    rw [hv, hp]

/-- C9 witness: the amended statement at the invalid note 'X' (sentinel)
and at the valid note 'C' with malformed shorthand 'z' (ValueError). -/
theorem from_shorthand_failure_modes_witness :
    from_shorthand ['X'] ['3'] true = some .sentinelFalse ∧
    from_shorthand ['C'] ['z'] true = some .valueError :=
  ⟨(from_shorthand_failure_modes ['X'] ['3'] true).1 (by decide),
   (from_shorthand_failure_modes ['C'] ['z'] true).2 (by decide)
     (by decide)⟩

/-- C10: every successfully parsed shorthand yields a degree in [1,7] and
an octave offset in [0,2], and the dispatch-table lookup for that degree
always succeeds, so the `False`-on-degree-lookup-failure branch of
`from_shorthand` is unreachable after a successful parse. -/
theorem parse_shorthand_bounds :
    ∀ (sh accs : List Char) (d o : Nat),
      parse_shorthand sh = some (accs, d, o) →
      1 ≤ d ∧ d ≤ 7 ∧ o ≤ 2 ∧
      ∀ up : Bool, (shorthand_lookup d up).isSome := by
  intro sh accs d o h
  simp only [parse_shorthand] at h
  split at h
  · rename_i c hceq
    split at h
    · rename_i hc
      obtain ⟨hc1, hc2⟩ := hc
      have b1 : 49 ≤ c.toNat := char_toNat_le_of_le hc1
      have b2 : c.toNat ≤ 57 := char_toNat_le_of_le hc2
      have h' := Option.some_inj.mp h
      have hd := congrArg (fun x => x.2.1) h'
      have ho := congrArg (fun x => x.2.2) h'
      dsimp only at hd ho
      rw [show ('0'.toNat) = 48 from rfl] at hd ho
      subst hd
      subst ho
      exact ⟨by omega, by omega, by omega,
        shorthand_lookup_isSome (by omega) (by omega)⟩
    · exact Option.noConfusion h
  · rename_i c hceq
    split at h
    · rename_i hc
      obtain ⟨hc1, hc2⟩ := hc
      have b1 : 48 ≤ c.toNat := char_toNat_le_of_le hc1
      have b2 : c.toNat ≤ 53 := char_toNat_le_of_le hc2
      have h' := Option.some_inj.mp h
      have hd := congrArg (fun x => x.2.1) h'
      have ho := congrArg (fun x => x.2.2) h'
      dsimp only at hd ho
      rw [show ('0'.toNat) = 48 from rfl] at hd ho
      subst hd
      subst ho
      exact ⟨by omega, by omega, by omega,
        shorthand_lookup_isSome (by omega) (by omega)⟩
    · exact Option.noConfusion h
  · exact Option.noConfusion h

/-- C10 witness: the parse bounds at the shorthand 'b3'. -/
theorem parse_shorthand_bounds_witness :
    1 ≤ 3 ∧ 3 ≤ 7 ∧ 0 ≤ 2 ∧
    ∀ up : Bool, (shorthand_lookup 3 up).isSome :=
  parse_shorthand_bounds ['b','3'] ['b'] 3 0 (by decide)

end Mingus
